import Mathlib

/-
Verification of the EratBig large-prime crossing-off engine of primesieve,
and of the null-pointer guards of the public generate_primes API.

The repository ships the header EratBig.h (declaring EratBig::crossOff,
EratBig::store, EratBig::setListsSize, EratBig::getList and the fields
lists_, stock_, pointers_) and primesieve.hpp (the inline public API).
The implementation file EratBig.cpp and WheelFactorization.h are not in
the source tree, so the engine's behaviour is modelled from the
specification, at the level of the candidate numbers the engine touches:

 - the sieve uses the modulo-30 bit layout: each byte covers 30 numbers
   and its 8 bits stand for the residues 1,7,11,13,17,19,23,29;
 - a WheelPrime is a sieving prime together with its wheel cursor; its
   next strike is the number prime * cofactor, where the cofactor runs
   over the integers coprime to 210 (the modulo-210 wheel skips all
   multiples sharing a factor with 2*3*5*7), starting at the prime
   itself so that only composites are ever struck;
 - lists_ routes every WheelPrime to the future segment holding its
   next strike; the rotation of lists_ after each segment is logical
   (an index offset), modelled here by tagging each filed WheelPrime
   with the absolute index of the segment of its next strike and
   keeping a current-segment counter;
 - a prime whose next multiple exceeds stop is silently dropped; the
   ghost counters dropped/added record the specification's conservation
   accounting and are not engine memory.

Bit shifts by log2 of the segment size in the source are modelled as
division and remainder by the segment size, which they equal for the
power-of-two sizes the code requires.
-/

/-- The eight residues modulo 30 that are coprime to 30, in the order in
which the sieve's bit layout stores them. -/
def wheelResidues : List Nat := [1, 7, 11, 13, 17, 19, 23, 29]

/-- Position of a residue modulo 30 inside a sieve byte; residues not
coprime to 30 have no bit and are mapped to the out-of-range value 8. -/
def resIndex (r : Nat) : Nat :=
  match r with
  | 1 => 0
  | 7 => 1
  | 11 => 2
  | 13 => 3
  | 17 => 4
  | 19 => 5
  | 23 => 6
  | 29 => 7
  | _ => 8

/-- Test for coprimality to 30 = 2*3*5. -/
def isCoprime30 (n : Nat) : Bool :=
  n % 2 != 0 && n % 3 != 0 && n % 5 != 0

/-- Test for coprimality to 210 = 2*3*5*7; the modulo-210 wheel admits
exactly these cofactors. -/
def isCoprime210 (n : Nat) : Bool :=
  isCoprime30 n && n % 7 != 0

/-- Absolute bit index of a candidate number in the modulo-30 layout:
byte n / 30, bit resIndex (n % 30). -/
def bitIndexOf (n : Nat) : Nat := 8 * (n / 30) + resIndex (n % 30)

/-- Modelled from the spec: construction inputs of EratBig (stop,
sieve size in bytes, max sieving prime); EratBig.cpp is not in the
source tree. -/
structure Params where
  stop : Nat
  segmentBytes : Nat
  maxSievingPrime : Nat
deriving Repr, DecidableEq

/-- Number of bits of one segment's sieve bitmap. -/
def segBits (P : Params) : Nat := 8 * P.segmentBytes

/-- Smallest number covered by segment s; segments partition the
numbers in blocks of 30 * segmentBytes. -/
def segLowNum (P : Params) (s : Nat) : Nat := 30 * P.segmentBytes * s

/-- Index of the segment whose bitmap holds the bit of n: the absolute
bit index shifted right by log2 of the segment bit count. -/
def segOf (P : Params) (n : Nat) : Nat := bitIndexOf n / segBits P

/-- Modelled from the spec: a WheelPrime is a sieving prime together
with its wheel cursor.  The packed fields (multiple_index, wheel_index)
of the missing WheelFactorization.h are carried semantically: the next
strike is the number prime * cofactor, and multiple_index is recovered
as bitIndexOf (prime * cofactor) minus the bit base of the target
segment. -/
structure WheelPrime where
  prime : Nat
  cofactor : Nat
deriving Repr, DecidableEq

/-- Modelled from the spec: the state of an EratBig engine.  filed is
the contents of all lists_ chains: an entry (s, wp) means wp is filed
in the slot of absolute segment s, i.e. in lists_[s - curSeg] relative
to the current segment.  allocatedSlots is the length of the allocated
lists_ vector.  dropped and added are the spec's ghost accounting of
retired primes and of add_sieving_prime calls. -/
structure EngineState where
  filed : List (Nat × WheelPrime)
  allocatedSlots : Nat
  dropped : Nat
  added : Nat
  curSeg : Nat
deriving Repr, DecidableEq

/-- Modelled from the spec: EratBig::setListsSize is not in the source
tree; the spec's constructor allocates lists_ of size
max_sieving_prime / segment_bytes + 2. -/
def setListsSize (P : Params) : Nat := P.maxSievingPrime / P.segmentBytes + 2

/-- Modelled from the spec: the constructor; all lists_ slots start
empty. -/
def initEngine (P : Params) : EngineState :=
  { filed := [], allocatedSlots := setListsSize P, dropped := 0, added := 0, curSeg := 0 }

/-- The data-model section of the spec states the lists_ length as
ceil(max_prime / segment_bytes) + 1 instead. -/
def dataModelListsLen (P : Params) : Nat :=
  (P.maxSievingPrime + P.segmentBytes - 1) / P.segmentBytes + 1

/-- Chain of WheelPrimes in lists_[i], i segments ahead of the current
one: the filed entries tagged with absolute segment curSeg + i. -/
def listAt (st : EngineState) (i : Nat) : List WheelPrime :=
  (st.filed.filter (fun e => e.1 == st.curSeg + i)).map (fun e => e.2)

/-- Fueled search for the next integer coprime to 210; a gap between
consecutive integers coprime to 210 is below 210, so fuel 210 always
suffices. -/
def nextCoprimeAux : Nat → Nat → Nat
  | 0, k => k
  | fuel + 1, k => if isCoprime210 k then k else nextCoprimeAux fuel (k + 1)

/-- Least integer at least k that is coprime to 210. -/
def nextCoprime210 (k : Nat) : Nat := nextCoprimeAux 210 k

/-- Ceiling division on naturals. -/
def ceilDivNat (a b : Nat) : Nat := (a + b - 1) / b

/-- First wheel cofactor of p at the engine's current base: the least
cofactor coprime to 210 that is at least p (so only composites at
least p * p are struck) and whose multiple reaches the current base. -/
def seedCofactor (P : Params) (st : EngineState) (p : Nat) : Nat :=
  nextCoprime210 (max p (ceilDivNat (segLowNum P st.curSeg) p))

/-- Modelled from the spec: EratBig::store / add_sieving_prime, whose
implementation is not in the source tree.  Computes the first wheel
multiple of p at or beyond the current base; if it exceeds stop the
prime is silently dropped (normal flow), otherwise the WheelPrime is
routed to the lists_ slot of the segment holding that multiple. -/
def addSievingPrime (P : Params) (st : EngineState) (p : Nat) : EngineState :=
  let k := seedCofactor P st p
  if P.stop < p * k then
    { st with dropped := st.dropped + 1, added := st.added + 1 }
  else
    { st with filed := st.filed ++ [(segOf P (p * k), ⟨p, k⟩)], added := st.added + 1 }

/-- Wheel cofactors of wp whose strikes land inside segment s: all
cofactors coprime to 210 from the current cursor up, with multiple
below the segment's upper bound. -/
def strikeCofactors (P : Params) (s : Nat) (wp : WheelPrime) : List Nat :=
  (List.range' wp.cofactor (segLowNum P (s + 1) / wp.prime + 1 - wp.cofactor)).filter
    (fun k => isCoprime210 k && decide (wp.prime * k < segLowNum P (s + 1)))

/-- Relative bit indices inside segment s cleared for wp: for each
strike, the absolute bit index minus the segment's bit base. -/
def strikeIdxs (P : Params) (s : Nat) (wp : WheelPrime) : List Nat :=
  (strikeCofactors P s wp).map (fun k => bitIndexOf (wp.prime * k) - segBits P * s)

/-- Clear the given bit positions of a sieve bitmap; each strike is the
bit-level form of the byte AND with a complement mask. -/
def clearBits (sieve : List Bool) (idxs : List Nat) : List Bool :=
  idxs.foldl (fun sv i => sv.set i false) sieve

/-- Cofactor of wp's first strike beyond segment s: the least coprime
cofactor at least the cursor whose multiple reaches the next segment
base. -/
def nextCofactor (P : Params) (s : Nat) (wp : WheelPrime) : Nat :=
  nextCoprime210 (max wp.cofactor (ceilDivNat (segLowNum P (s + 1)) wp.prime))

/-- Re-filing decision after wp's strikes in segment s: none when the
next multiple exceeds stop (the prime is retired), otherwise the slot
of the segment holding the next strike, with the wheel state carried
over unchanged. -/
def nextRefile (P : Params) (s : Nat) (wp : WheelPrime) : Option (Nat × WheelPrime) :=
  let k := nextCofactor P s wp
  if P.stop < wp.prime * k then none
  else some (segOf P (wp.prime * k), ⟨wp.prime, k⟩)

/-- Modelled from the spec: EratBig::crossOff, whose implementation is
not in the source tree.  Drains lists_[0]: for each WheelPrime of the
current segment's chain, clears the bits of all its strikes inside the
segment, then either retires it (next multiple beyond stop) or re-files
it into the future slot of its next strike; finally rotates lists_
logically by advancing the current segment counter. -/
def crossOff (P : Params) (st : EngineState) (sieve : List Bool) :
    EngineState × List Bool :=
  let cur := listAt st 0
  ({ filed := st.filed.filter (fun e => e.1 != st.curSeg)
        ++ cur.filterMap (nextRefile P st.curSeg),
     allocatedSlots := st.allocatedSlots,
     dropped := st.dropped + cur.countP (fun wp => (nextRefile P st.curSeg wp).isNone),
     added := st.added,
     curSeg := st.curSeg + 1 },
   cur.foldl (fun sv wp => clearBits sv (strikeIdxs P st.curSeg wp)) sieve)

/-- One call of the engine's public interface: add one sieving prime,
or cross off one segment. -/
inductive EngineOp
  | addPrime (p : Nat)
  | cross
deriving Repr, DecidableEq

/-- Run a sequence of engine calls from a state; each cross_off starts
from an all-ones reference sieve of the segment's bit count and its
output bitmap is collected in order. -/
def runOps (P : Params) : EngineState → List EngineOp → EngineState × List (List Bool)
  | st, [] => (st, [])
  | st, .addPrime p :: ops => runOps P (addSievingPrime P st p) ops
  | st, .cross :: ops =>
    let stp := crossOff P st (List.replicate (segBits P) true)
    let rest := runOps P stp.1 ops
    (rest.1, stp.2 :: rest.2)

/-- The primes handed to add_sieving_prime in a call sequence. -/
def addedPrimes : List EngineOp → List Nat
  | [] => []
  | .addPrime p :: ops => p :: addedPrimes ops
  | .cross :: ops => addedPrimes ops

/-- Initialization phase: add a batch of sieving primes. -/
def runAdds (P : Params) (st : EngineState) (ps : List Nat) : EngineState :=
  ps.foldl (addSievingPrime P) st

/-- Sieving phase: cross off n consecutive segments, collecting each
segment's output bitmap. -/
def runCross (P : Params) : EngineState → Nat → EngineState × List (List Bool)
  | st, 0 => (st, [])
  | st, n + 1 =>
    let stp := crossOff P st (List.replicate (segBits P) true)
    let rest := runCross P stp.1 n
    (rest.1, stp.2 :: rest.2)

/-- Engine state after crossing off j segments, without the bitmaps. -/
def iterSeg (P : Params) : EngineState → Nat → EngineState
  | st, 0 => st
  | st, j + 1 => iterSeg P (crossOff P st (List.replicate (segBits P) true)).1 j

/-- Executable primality test. -/
def isPrimeB (n : Nat) : Bool :=
  2 ≤ n && (List.range n).all (fun d => d < 2 || n % d != 0)

/-- The primes inside [start, stop], in increasing order. -/
def primesBetween (start stop : Nat) : List Nat :=
  (List.range (stop + 1)).filter (fun n => isPrimeB n && decide (start ≤ n))

/-- Modelled from the spec: store_primes of StorePrimes.hpp is not in
the source tree; per its caller's documentation it appends the primes
inside [start, stop] to the end of the primes vector. -/
def store_primes (start stop : Nat) (v : List Nat) : List Nat :=
  v ++ primesBetween start stop

/-- Modelled from the spec: store_n_primes of StorePrimes.hpp is not in
the source tree; it appends the first n primes at least start to the
vector.  The search window (start + 2) * 2 ^ n contains at least n
primes at least start by Bertrand's postulate. -/
def store_n_primes (n start : Nat) (v : List Nat) : List Nat :=
  v ++ ((List.range ((start + 2) * 2 ^ n)).filter
    (fun q => isPrimeB q && decide (start ≤ q))).take n

/-- generate_primes(stop, primes) from primesieve.hpp: the null guard
is the code; a null vector pointer is modelled as none and the call
returns the pointed-to vector unchanged in that case. -/
def generate_primes (stop : Nat) (primes : Option (List Nat)) : Option (List Nat) :=
  match primes with
  | none => none
  | some v => some (store_primes 0 stop v)

/-- generate_primes(start, stop, primes) from primesieve.hpp. -/
def generate_primes_range (start stop : Nat) (primes : Option (List Nat)) :
    Option (List Nat) :=
  match primes with
  | none => none
  | some v => some (store_primes start stop v)

/-- generate_n_primes(n, primes) from primesieve.hpp. -/
def generate_n_primes (n : Nat) (primes : Option (List Nat)) : Option (List Nat) :=
  match primes with
  | none => none
  | some v => some (store_n_primes n 0 v)

/-- generate_n_primes(n, start, primes) from primesieve.hpp. -/
def generate_n_primes_from (n start : Nat) (primes : Option (List Nat)) :
    Option (List Nat) :=
  match primes with
  | none => none
  | some v => some (store_n_primes n start v)

/-- A filed entry is well formed: its prime and cofactor are wheel
units, only composites at least prime^2 are pending, its strike does
not exceed stop, and its tag is the segment of its next strike. -/
def GoodEntry (P : Params) (e : Nat × WheelPrime) : Prop :=
  isCoprime210 e.2.prime = true ∧ isCoprime210 e.2.cofactor = true ∧
  2 ≤ e.2.prime ∧ e.2.prime ≤ e.2.cofactor ∧
  e.2.prime * e.2.cofactor ≤ P.stop ∧
  e.1 = segOf P (e.2.prime * e.2.cofactor)

/-- All filed entries of a state are well formed. -/
def GoodState (P : Params) (st : EngineState) : Prop :=
  ∀ e ∈ st.filed, GoodEntry P e

/-- The engine tracks prime p toward target cofactor kt: some filed
WheelPrime for p carries a cofactor kc at most kt, every smaller
admissible cofactor's multiple lies strictly before the current base,
and kc's multiple is at or beyond the current base. -/
def Tracks (P : Params) (p kt : Nat) (st : EngineState) : Prop :=
  ∃ kc, (segOf P (p * kc), WheelPrime.mk p kc) ∈ st.filed ∧
    isCoprime210 kc = true ∧ p ≤ kc ∧ kc ≤ kt ∧
    segLowNum P st.curSeg ≤ p * kc ∧
    ∀ j, isCoprime210 j = true → p ≤ j → j < kc → p * j < segLowNum P st.curSeg

/-! Arithmetic bridges between candidate numbers, bit indices and
segments. -/

theorem isCoprime30_parts {n : Nat} (h : isCoprime30 n = true) :
    n % 2 ≠ 0 ∧ n % 3 ≠ 0 ∧ n % 5 ≠ 0 := by
  simp only [isCoprime30, Bool.and_eq_true, bne_iff_ne, ne_eq] at h
  exact ⟨h.1.1, h.1.2, h.2⟩

theorem isCoprime210_parts {n : Nat} (h : isCoprime210 n = true) :
    n % 2 ≠ 0 ∧ n % 3 ≠ 0 ∧ n % 5 ≠ 0 ∧ n % 7 ≠ 0 := by
  simp only [isCoprime210, isCoprime30, Bool.and_eq_true, bne_iff_ne, ne_eq] at h
  exact ⟨h.1.1.1, h.1.1.2, h.1.2, h.2⟩

theorem isCoprime210_pos {n : Nat} (h : isCoprime210 n = true) : 0 < n := by
  rcases Nat.eq_zero_or_pos n with rfl | h' 
  · simp [isCoprime210, isCoprime30] at h
  · exact h'

theorem resIndex_lt_eight {n : Nat} (h : isCoprime30 n = true) : resIndex (n % 30) < 8 := by
  have key : ∀ r < 30, r % 2 ≠ 0 → r % 3 ≠ 0 → r % 5 ≠ 0 → resIndex r < 8 := by decide
  obtain ⟨h2, h3, h5⟩ := isCoprime30_parts h
  refine key (n % 30) (Nat.mod_lt _ (by norm_num)) ?_ ?_ ?_
  · rw [Nat.mod_mod_of_dvd n (by norm_num : (2:Nat) ∣ 30)]; exact h2
  · rw [Nat.mod_mod_of_dvd n (by norm_num : (3:Nat) ∣ 30)]; exact h3
  · rw [Nat.mod_mod_of_dvd n (by norm_num : (5:Nat) ∣ 30)]; exact h5

theorem bitIndexOf_lt_iff {n : Nat} (h : isCoprime30 n = true) (B : Nat) :
    bitIndexOf n < 8 * B ↔ n < 30 * B := by
  have hr : resIndex (n % 30) < 8 := resIndex_lt_eight h
  unfold bitIndexOf
  omega

theorem le_bitIndexOf_iff {n : Nat} (h : isCoprime30 n = true) (B : Nat) :
    8 * B ≤ bitIndexOf n ↔ 30 * B ≤ n := by
  have := bitIndexOf_lt_iff h B
  omega

theorem bitIndexOf_inj {a b : Nat} (ha : isCoprime30 a = true) (hb : isCoprime30 b = true)
    (h : bitIndexOf a = bitIndexOf b) : a = b := by
  have ra := resIndex_lt_eight ha
  have rb := resIndex_lt_eight hb
  unfold bitIndexOf at h
  have hdiv : a / 30 = b / 30 := by omega
  have hres : resIndex (a % 30) = resIndex (b % 30) := by omega
  have key : ∀ x ∈ List.range 30, ∀ y ∈ List.range 30,
      (x % 2 ≠ 0 ∧ x % 3 ≠ 0 ∧ x % 5 ≠ 0) →
      (y % 2 ≠ 0 ∧ y % 3 ≠ 0 ∧ y % 5 ≠ 0) →
      resIndex x = resIndex y → x = y := by decide
  obtain ⟨a2, a3, a5⟩ := isCoprime30_parts ha
  obtain ⟨b2, b3, b5⟩ := isCoprime30_parts hb
  have hmod : a % 30 = b % 30 := by
    refine key (a % 30) (List.mem_range.mpr (Nat.mod_lt _ (by norm_num)))
      (b % 30) (List.mem_range.mpr (Nat.mod_lt _ (by norm_num)))
      ⟨?_, ?_, ?_⟩ ⟨?_, ?_, ?_⟩ hres
    · rw [Nat.mod_mod_of_dvd a (by norm_num : (2:Nat) ∣ 30)]; exact a2
    · rw [Nat.mod_mod_of_dvd a (by norm_num : (3:Nat) ∣ 30)]; exact a3
    · rw [Nat.mod_mod_of_dvd a (by norm_num : (5:Nat) ∣ 30)]; exact a5
    · rw [Nat.mod_mod_of_dvd b (by norm_num : (2:Nat) ∣ 30)]; exact b2
    · rw [Nat.mod_mod_of_dvd b (by norm_num : (3:Nat) ∣ 30)]; exact b3
    · rw [Nat.mod_mod_of_dvd b (by norm_num : (5:Nat) ∣ 30)]; exact b5
  omega

theorem isCoprime30_mul {p k : Nat} (hp : isCoprime210 p = true) (hk : isCoprime210 k = true) :
    isCoprime30 (p * k) = true := by
  obtain ⟨p2, p3, p5, _⟩ := isCoprime210_parts hp
  obtain ⟨k2, k3, k5, _⟩ := isCoprime210_parts hk
  have k2' : ∀ a < 2, ∀ b < 2, a ≠ 0 → b ≠ 0 → a * b % 2 ≠ 0 := by decide
  have k3' : ∀ a < 3, ∀ b < 3, a ≠ 0 → b ≠ 0 → a * b % 3 ≠ 0 := by decide
  have k5' : ∀ a < 5, ∀ b < 5, a ≠ 0 → b ≠ 0 → a * b % 5 ≠ 0 := by decide
  simp only [isCoprime30, Bool.and_eq_true, bne_iff_ne, ne_eq]
  refine ⟨⟨?_, ?_⟩, ?_⟩
  · rw [Nat.mul_mod]
    exact k2' _ (Nat.mod_lt _ (by norm_num)) _ (Nat.mod_lt _ (by norm_num)) p2 k2
  · rw [Nat.mul_mod]
    exact k3' _ (Nat.mod_lt _ (by norm_num)) _ (Nat.mod_lt _ (by norm_num)) p3 k3
  · rw [Nat.mul_mod]
    exact k5' _ (Nat.mod_lt _ (by norm_num)) _ (Nat.mod_lt _ (by norm_num)) p5 k5

theorem segBits_bridge_lt {P : Params} {n s : Nat} (h : isCoprime30 n = true) :
    bitIndexOf n < segBits P * s ↔ n < segLowNum P s := by
  rw [show segBits P * s = 8 * (P.segmentBytes * s) by unfold segBits; ring,
      show segLowNum P s = 30 * (P.segmentBytes * s) by unfold segLowNum; ring]
  exact bitIndexOf_lt_iff h _

theorem segBits_bridge_le {P : Params} {n s : Nat} (h : isCoprime30 n = true) :
    segBits P * s ≤ bitIndexOf n ↔ segLowNum P s ≤ n := by
  rw [show segBits P * s = 8 * (P.segmentBytes * s) by unfold segBits; ring,
      show segLowNum P s = 30 * (P.segmentBytes * s) by unfold segLowNum; ring]
  exact le_bitIndexOf_iff h _

theorem le_segOf_iff {P : Params} {n s : Nat} (hseg : 0 < P.segmentBytes)
    (h : isCoprime30 n = true) :
    s ≤ segOf P n ↔ segLowNum P s ≤ n := by
  have h8 : 0 < segBits P := by unfold segBits; omega
  unfold segOf
  rw [Nat.le_div_iff_mul_le h8, Nat.mul_comm s (segBits P)]
  exact segBits_bridge_le h

theorem segOf_lt_iff {P : Params} {n s : Nat} (hseg : 0 < P.segmentBytes)
    (h : isCoprime30 n = true) :
    segOf P n < s ↔ n < segLowNum P s := by
  have := le_segOf_iff (n := n) (s := s) hseg h
  have h1 := segBits_bridge_lt (P := P) (n := n) (s := s) h
  omega

theorem segOf_eq_iff {P : Params} {n s : Nat} (hseg : 0 < P.segmentBytes)
    (h : isCoprime30 n = true) :
    segOf P n = s ↔ segLowNum P s ≤ n ∧ n < segLowNum P (s + 1) := by
  have h1 := le_segOf_iff (n := n) (s := s) hseg h
  have h2 := segOf_lt_iff (n := n) (s := s + 1) hseg h
  omega

theorem segLowNum_mono (P : Params) {s t : Nat} (h : s ≤ t) :
    segLowNum P s ≤ segLowNum P t := by
  unfold segLowNum
  exact Nat.mul_le_mul_left _ h

theorem ceilDivNat_le_iff {H p k : Nat} (hp : 0 < p) : ceilDivNat H p ≤ k ↔ H ≤ p * k := by
  unfold ceilDivNat
  constructor
  · intro hle
    have h2 : H + p - 1 < (k + 1) * p :=
      (Nat.div_lt_iff_lt_mul hp).mp (Nat.lt_succ_of_le hle)
    have h3 : (k + 1) * p = p * k + p := by ring
    omega
  · intro hge
    have h3 : (k + 1) * p = p * k + p := by ring
    have h2 : H + p - 1 < (k + 1) * p := by omega
    have := (Nat.div_lt_iff_lt_mul hp).mpr h2
    omega

/-! Properties of the fueled next-coprime-cofactor search. -/

theorem le_nextCoprimeAux (fuel : Nat) : ∀ k, k ≤ nextCoprimeAux fuel k := by
  induction fuel with
  | zero => intro k; simp [nextCoprimeAux]
  | succ f ih =>
    intro k
    unfold nextCoprimeAux
    split
    · exact Nat.le_refl k
    · exact Nat.le_trans (Nat.le_succ k) (ih (k + 1))

theorem nextCoprimeAux_coprime : ∀ fuel k,
    (∃ d, d < fuel ∧ isCoprime210 (k + d) = true) →
    isCoprime210 (nextCoprimeAux fuel k) = true := by
  intro fuel
  induction fuel with
  | zero =>
    intro k h
    obtain ⟨d, hd, _⟩ := h
    omega
  | succ f ih =>
    intro k h
    unfold nextCoprimeAux
    split
    · assumption
    · next hc =>
      apply ih
      obtain ⟨d, hd, hcop⟩ := h
      have hd0 : d ≠ 0 := by
        rintro rfl
        rw [Nat.add_zero] at hcop
        exact hc hcop
      exact ⟨d - 1, by omega, by rw [show k + 1 + (d - 1) = k + d by omega]; exact hcop⟩

theorem nextCoprimeAux_min : ∀ fuel k j, k ≤ j → j < nextCoprimeAux fuel k →
    isCoprime210 j = false := by
  intro fuel
  induction fuel with
  | zero =>
    intro k j h1 h2
    simp [nextCoprimeAux] at h2
    omega
  | succ f ih =>
    intro k j h1 h2
    unfold nextCoprimeAux at h2
    by_cases hc : isCoprime210 k = true
    · rw [if_pos hc] at h2; omega
    · rw [if_neg hc] at h2
      rcases Nat.eq_or_lt_of_le h1 with rfl | hlt
      · exact Bool.eq_false_iff.mpr hc
      · exact ih (k + 1) j hlt h2

set_option maxRecDepth 4000 in
theorem exists_coprime210_gap (k : Nat) : ∃ d, d < 210 ∧ isCoprime210 (k + d) = true := by
  have key : ∀ r ∈ List.range 210, ∃ d, d < 210 ∧ isCoprime210 (r + d) = true := by decide
  obtain ⟨d, hd, hc⟩ := key (k % 210) (List.mem_range.mpr (Nat.mod_lt _ (by norm_num)))
  refine ⟨d, hd, ?_⟩
  have t : ∀ m : Nat, m ∣ 210 → (k + d) % m = (k % 210 + d) % m := by
    intro m hm
    conv_lhs => rw [Nat.add_mod]
    conv_rhs => rw [Nat.add_mod]
    rw [Nat.mod_mod_of_dvd k hm]
  simp only [isCoprime210, isCoprime30, Bool.and_eq_true, bne_iff_ne, ne_eq] at hc ⊢
  rw [t 2 (by norm_num), t 3 (by norm_num), t 5 (by norm_num), t 7 (by norm_num)]
  exact hc

theorem le_nextCoprime210 (k : Nat) : k ≤ nextCoprime210 k := le_nextCoprimeAux 210 k

theorem nextCoprime210_coprime (k : Nat) : isCoprime210 (nextCoprime210 k) = true :=
  nextCoprimeAux_coprime 210 k (exists_coprime210_gap k)

theorem nextCoprime210_min {k j : Nat} (h1 : k ≤ j) (h2 : j < nextCoprime210 k) :
    isCoprime210 j = false :=
  nextCoprimeAux_min 210 k j h1 h2

theorem nextCoprime210_le {k m : Nat} (hm : isCoprime210 m = true) (h : k ≤ m) :
    nextCoprime210 k ≤ m := by
  by_contra h'
  push_neg at h'
  have := nextCoprime210_min h h'
  rw [hm] at this
  cases this

theorem nextCoprime210_eq_self {k : Nat} (h : isCoprime210 k = true) :
    nextCoprime210 k = k := by
  unfold nextCoprime210 nextCoprimeAux
  rw [if_pos h]

/-! Properties of bit clearing on the sieve bitmap. -/

theorem clearBits_nil (sv : List Bool) : clearBits sv [] = sv := rfl

theorem clearBits_cons (sv : List Bool) (i : Nat) (t : List Nat) :
    clearBits sv (i :: t) = clearBits (sv.set i false) t := rfl

theorem clearBits_length (l : List Nat) : ∀ sv : List Bool, (clearBits sv l).length = sv.length := by
  induction l with
  | nil => intro sv; rfl
  | cons i t ih =>
    intro sv
    rw [clearBits_cons, ih, List.length_set]

theorem getD_set_false_self {sv : List Bool} {i : Nat} (h : i < sv.length) (d : Bool) :
    (sv.set i false).getD i d = false := by
  rw [List.getD_eq_getElem?_getD, List.getElem?_set_self (by omega)]
  rfl

theorem getD_set_other {sv : List Bool} {i j : Nat} (h : j ≠ i) (d : Bool) :
    (sv.set j false).getD i d = sv.getD i d := by
  rw [List.getD_eq_getElem?_getD, List.getElem?_set_ne h, ← List.getD_eq_getElem?_getD]

theorem getD_false_lt_length {sv : List Bool} {i : Nat} (h : sv.getD i true = false) :
    i < sv.length := by
  by_contra hn
  push_neg at hn
  rw [List.getD_eq_getElem?_getD, List.getElem?_eq_none (by omega)] at h
  cases h

theorem clearBits_getD_false (l : List Nat) : ∀ sv : List Bool, ∀ i : Nat,
    sv.getD i true = false → (clearBits sv l).getD i true = false := by
  induction l with
  | nil => intro sv i h; exact h
  | cons j t ih =>
    intro sv i h
    rw [clearBits_cons]
    apply ih
    by_cases hji : j = i
    · subst hji
      exact getD_set_false_self (getD_false_lt_length h) true
    · rw [getD_set_other hji]
      exact h

theorem clearBits_getD_of_mem (l : List Nat) : ∀ sv : List Bool, ∀ i : Nat,
    i ∈ l → i < sv.length → (clearBits sv l).getD i true = false := by
  induction l with
  | nil => intro sv i hm _; cases hm
  | cons j t ih =>
    intro sv i hm hi
    rw [clearBits_cons]
    rcases List.mem_cons.mp hm with rfl | hmem
    · exact clearBits_getD_false t _ _ (getD_set_false_self hi true)
    · exact ih _ _ hmem (by rw [List.length_set]; exact hi)

theorem clearBits_getD_of_not_mem (l : List Nat) : ∀ sv : List Bool, ∀ i : Nat, ∀ d : Bool,
    i ∉ l → (clearBits sv l).getD i d = sv.getD i d := by
  induction l with
  | nil => intro sv i d _; rfl
  | cons j t ih =>
    intro sv i d hm
    rw [clearBits_cons, ih _ _ _ (fun hmem => hm (List.mem_cons_of_mem j hmem))]
    exact getD_set_other (fun he => hm (by rw [← he]; exact List.mem_cons_self j t)) d

/-! The per-segment drain of lists_[0] as a fold of strikes. -/

theorem foldStrikes_length (P : Params) (s : Nat) (cur : List WheelPrime) :
    ∀ sv : List Bool,
      (cur.foldl (fun sv wp => clearBits sv (strikeIdxs P s wp)) sv).length = sv.length := by
  induction cur with
  | nil => intro sv; rfl
  | cons w t ih =>
    intro sv
    rw [List.foldl_cons, ih, clearBits_length]

theorem foldStrikes_getD_false (P : Params) (s : Nat) (cur : List WheelPrime) :
    ∀ sv : List Bool, ∀ i : Nat, sv.getD i true = false →
      (cur.foldl (fun sv wp => clearBits sv (strikeIdxs P s wp)) sv).getD i true = false := by
  induction cur with
  | nil => intro sv i h; exact h
  | cons w t ih =>
    intro sv i h
    rw [List.foldl_cons]
    exact ih _ _ (clearBits_getD_false _ _ _ h)

theorem foldStrikes_hit (P : Params) (s : Nat) (cur : List WheelPrime) :
    ∀ sv : List Bool, ∀ i : Nat, ∀ wp, wp ∈ cur → i ∈ strikeIdxs P s wp → i < sv.length →
      (cur.foldl (fun sv wp => clearBits sv (strikeIdxs P s wp)) sv).getD i true = false := by
  induction cur with
  | nil => intro _ _ _ hm _ _; cases hm
  | cons w t ih =>
    intro sv i wp hm hidx hi
    rw [List.foldl_cons]
    rcases List.mem_cons.mp hm with rfl | hmem
    · exact foldStrikes_getD_false P s t _ _ (clearBits_getD_of_mem _ _ _ hidx hi)
    · exact ih _ _ wp hmem hidx (by rw [clearBits_length]; exact hi)

theorem foldStrikes_not_hit (P : Params) (s : Nat) (cur : List WheelPrime) :
    ∀ sv : List Bool, ∀ i : Nat, ∀ d : Bool, (∀ wp ∈ cur, i ∉ strikeIdxs P s wp) →
      (cur.foldl (fun sv wp => clearBits sv (strikeIdxs P s wp)) sv).getD i d = sv.getD i d := by
  induction cur with
  | nil => intro _ _ _ _; rfl
  | cons w t ih =>
    intro sv i d h
    rw [List.foldl_cons, ih _ _ _ (fun wp hm => h wp (List.mem_cons_of_mem w hm))]
    exact clearBits_getD_of_not_mem _ _ _ _ (h w (List.mem_cons_self w t))

theorem replicate_getD_true (n i : Nat) : (List.replicate n true).getD i true = true := by
  rw [List.getD_eq_getElem?_getD, List.getElem?_replicate]
  split <;> rfl

/-! State projections and membership characterizations. -/

theorem crossOff_fst_curSeg (P : Params) (st : EngineState) (sv : List Bool) :
    (crossOff P st sv).1.curSeg = st.curSeg + 1 := rfl

theorem crossOff_fst_allocatedSlots (P : Params) (st : EngineState) (sv : List Bool) :
    (crossOff P st sv).1.allocatedSlots = st.allocatedSlots := rfl

theorem crossOff_fst_filed (P : Params) (st : EngineState) (sv : List Bool) :
    (crossOff P st sv).1.filed =
      st.filed.filter (fun e => e.1 != st.curSeg)
        ++ (listAt st 0).filterMap (nextRefile P st.curSeg) := rfl

theorem crossOff_snd (P : Params) (st : EngineState) (sv : List Bool) :
    (crossOff P st sv).2 =
      (listAt st 0).foldl (fun sv wp => clearBits sv (strikeIdxs P st.curSeg wp)) sv := rfl

theorem addSievingPrime_curSeg (P : Params) (st : EngineState) (p : Nat) :
    (addSievingPrime P st p).curSeg = st.curSeg := by
  simp only [addSievingPrime]
  split <;> rfl

theorem mem_listAt {st : EngineState} {i : Nat} {wp : WheelPrime} :
    wp ∈ listAt st i ↔ (st.curSeg + i, wp) ∈ st.filed := by
  unfold listAt
  simp only [List.mem_map, List.mem_filter, beq_iff_eq]
  constructor
  · rintro ⟨e, ⟨he, heq⟩, rfl⟩
    have : e = (st.curSeg + i, e.2) := by
      cases e
      simp_all
    rw [← this]
    exact he
  · intro hm
    exact ⟨(st.curSeg + i, wp), ⟨hm, rfl⟩, rfl⟩

theorem mem_strikeCofactors {P : Params} {s : Nat} {wp : WheelPrime} {k : Nat}
    (hp : 0 < wp.prime) :
    k ∈ strikeCofactors P s wp ↔
      wp.cofactor ≤ k ∧ isCoprime210 k = true ∧ wp.prime * k < segLowNum P (s + 1) := by
  unfold strikeCofactors
  simp only [List.mem_filter, List.mem_range'_1, Bool.and_eq_true, decide_eq_true_eq]
  constructor
  · rintro ⟨⟨h1, _⟩, h3, h4⟩
    exact ⟨h1, h3, h4⟩
  · rintro ⟨h1, h2, h3⟩
    refine ⟨⟨h1, ?_⟩, h2, h3⟩
    have hk : k ≤ segLowNum P (s + 1) / wp.prime := by
      by_contra hn
      push_neg at hn
      have := (Nat.div_lt_iff_lt_mul hp).mp hn
      rw [Nat.mul_comm] at this
      omega
    omega

/-! Counting lemmas for the conservation invariant. -/

theorem length_filter_partition (c : Nat) (l : List (Nat × WheelPrime)) :
    (l.filter (fun e => e.1 != c)).length + (l.filter (fun e => e.1 == c)).length
      = l.length := by
  induction l with
  | nil => rfl
  | cons e t ih =>
    by_cases he : e.1 = c
    · have h1 : (e.1 == c) = true := beq_iff_eq.mpr he
      have h2 : (e.1 != c) = false := by simp [bne, h1]
      simp [List.filter_cons, h1, h2]
      omega
    · have h1 : (e.1 == c) = false := beq_eq_false_iff_ne.mpr he
      have h2 : (e.1 != c) = true := by simp [bne, h1]
      simp [List.filter_cons, h1, h2]
      omega

theorem length_filterMap_add_countP (f : WheelPrime → Option (Nat × WheelPrime))
    (l : List WheelPrime) :
    (l.filterMap f).length + l.countP (fun a => (f a).isNone) = l.length := by
  induction l with
  | nil => rfl
  | cons a t ih =>
    cases hfa : f a with
    | none =>
      simp [List.filterMap_cons, hfa, List.countP_cons]
      omega
    | some b =>
      simp [List.filterMap_cons, hfa, List.countP_cons]
      omega

theorem addSievingPrime_counts (P : Params) (st : EngineState) (p : Nat) :
    (addSievingPrime P st p).filed.length + (addSievingPrime P st p).dropped
        = st.filed.length + st.dropped + 1 ∧
      (addSievingPrime P st p).added = st.added + 1 := by
  simp only [addSievingPrime]
  split
  · exact ⟨rfl, rfl⟩
  · constructor
    · simp [List.length_append]
      omega
    · rfl

theorem listAt_zero_length (st : EngineState) :
    (listAt st 0).length = (st.filed.filter (fun e => e.1 == st.curSeg)).length := by
  unfold listAt
  rw [List.length_map, Nat.add_zero]

theorem crossOff_counts (P : Params) (st : EngineState) (sv : List Bool) :
    (crossOff P st sv).1.filed.length + (crossOff P st sv).1.dropped
        = st.filed.length + st.dropped ∧
      (crossOff P st sv).1.added = st.added := by
  refine ⟨?_, rfl⟩
  have h0 : (crossOff P st sv).1.filed.length =
      (st.filed.filter (fun e => e.1 != st.curSeg)).length
        + ((listAt st 0).filterMap (nextRefile P st.curSeg)).length := by
    rw [crossOff_fst_filed, List.length_append]
  have h1 := length_filter_partition st.curSeg st.filed
  have h2 := length_filterMap_add_countP (nextRefile P st.curSeg) (listAt st 0)
  have h3 := listAt_zero_length st
  have h4 : (crossOff P st sv).1.dropped
      = st.dropped + (listAt st 0).countP (fun wp => (nextRefile P st.curSeg wp).isNone) := rfl
  omega

theorem runOps_counts (P : Params) (ops : List EngineOp) : ∀ st : EngineState,
    (runOps P st ops).1.filed.length + (runOps P st ops).1.dropped + st.added
      = st.filed.length + st.dropped + (runOps P st ops).1.added := by
  induction ops with
  | nil => intro st; simp [runOps]
  | cons op t ih =>
    intro st
    cases op with
    | addPrime p =>
      have hs := ih (addSievingPrime P st p)
      have hc := addSievingPrime_counts P st p
      simp only [runOps] at hs ⊢
      omega
    | cross =>
      have hs := ih (crossOff P st (List.replicate (segBits P) true)).1
      have hc := crossOff_counts P st (List.replicate (segBits P) true)
      simp only [runOps] at hs ⊢
      omega

/-! Preservation of entry well-formedness. -/

theorem goodState_init (P : Params) : GoodState P (initEngine P) := by
  intro e he
  simp [initEngine] at he

theorem goodState_add {P : Params} {st : EngineState} {p : Nat}
    (h : GoodState P st) (hp : isCoprime210 p = true) (h2 : 2 ≤ p) :
    GoodState P (addSievingPrime P st p) := by
  intro e he
  simp only [addSievingPrime] at he
  split at he
  · exact h e he
  · next hle =>
    rcases List.mem_append.mp he with hold | hnew
    · exact h e hold
    · have : e = (segOf P (p * seedCofactor P st p), ⟨p, seedCofactor P st p⟩) :=
        List.mem_singleton.mp hnew
      subst this
      refine ⟨hp, nextCoprime210_coprime _, h2, ?_,
        by show p * seedCofactor P st p ≤ P.stop; omega, rfl⟩
      exact Nat.le_trans (Nat.le_max_left _ _) (le_nextCoprime210 _)

theorem goodState_cross {P : Params} {st : EngineState} {sv : List Bool}
    (h : GoodState P st) : GoodState P (crossOff P st sv).1 := by
  intro e he
  rw [crossOff_fst_filed] at he
  rcases List.mem_append.mp he with hrest | hnew
  · exact h e (List.mem_of_mem_filter hrest)
  · obtain ⟨wp, hwp, href⟩ := List.mem_filterMap.mp hnew
    have hwpf := h _ (mem_listAt.mp hwp)
    obtain ⟨hcp, hck, h2p, hple, hstop, _⟩ := hwpf
    simp only [nextRefile] at href
    split at href
    · cases href
    · next hns =>
      cases href
      refine ⟨hcp, nextCoprime210_coprime _, h2p, ?_,
        by show wp.prime * nextCofactor P st.curSeg wp ≤ P.stop; omega, rfl⟩
      exact Nat.le_trans hple (Nat.le_trans (Nat.le_max_left _ _) (le_nextCoprime210 _))

theorem goodState_runOps {P : Params} (ops : List EngineOp) : ∀ st : EngineState,
    GoodState P st →
    (∀ p ∈ addedPrimes ops, isCoprime210 p = true ∧ 2 ≤ p) →
    GoodState P (runOps P st ops).1 := by
  induction ops with
  | nil => intro st h _; exact h
  | cons op t ih =>
    intro st h hops
    cases op with
    | addPrime p =>
      have hp := hops p (by simp [addedPrimes])
      exact ih _ (goodState_add h hp.1 hp.2)
        (fun q hq => hops q (by simp [addedPrimes]; right; exact hq))
    | cross =>
      exact ih _ (goodState_cross h) (fun q hq => hops q (by simpa [addedPrimes] using hq))

/-! The engine tracks every pending wheel multiple: invariant transport
through add_sieving_prime and cross_off. -/

theorem tracks_addSelf {P : Params} {st : EngineState} {p kt : Nat}
    (hcp : isCoprime210 p = true) (h2 : 2 ≤ p)
    (hktc : isCoprime210 kt = true) (hpkt : p ≤ kt) (hstop : p * kt ≤ P.stop)
    (hbase : segLowNum P st.curSeg ≤ p * kt) :
    Tracks P p kt (addSievingPrime P st p) := by
  have hp0 : 0 < p := by omega
  have hmax : max p (ceilDivNat (segLowNum P st.curSeg) p) ≤ kt :=
    max_le hpkt ((ceilDivNat_le_iff hp0).mpr hbase)
  have hk0kt : seedCofactor P st p ≤ kt := nextCoprime210_le hktc hmax
  have hk0c : isCoprime210 (seedCofactor P st p) = true := nextCoprime210_coprime _
  have hk0p : p ≤ seedCofactor P st p :=
    Nat.le_trans (Nat.le_max_left _ _) (le_nextCoprime210 _)
  have hmul : p * seedCofactor P st p ≤ p * kt := Nat.mul_le_mul_left _ hk0kt
  have hnd : ¬ (P.stop < p * seedCofactor P st p) := by omega
  refine ⟨seedCofactor P st p, ?_, hk0c, hk0p, hk0kt, ?_, ?_⟩
  · simp only [addSievingPrime]
    rw [if_neg hnd]
    exact List.mem_append_right _ (List.mem_singleton_self _)
  · rw [addSievingPrime_curSeg]
    exact (ceilDivNat_le_iff hp0).mp
      (Nat.le_trans (Nat.le_max_right _ _) (le_nextCoprime210 _))
  · intro j hj hpj hjk
    rw [addSievingPrime_curSeg]
    rcases Nat.lt_or_ge (p * j) (segLowNum P st.curSeg) with hl | hg
    · exact hl
    · exfalso
      have hcl : ceilDivNat (segLowNum P st.curSeg) p ≤ j := (ceilDivNat_le_iff hp0).mpr hg
      have hmle : max p (ceilDivNat (segLowNum P st.curSeg) p) ≤ j := max_le hpj hcl
      have hb := nextCoprime210_min hmle hjk
      rw [hj] at hb
      cases hb

theorem tracks_add_other {P : Params} {st : EngineState} {p kt q : Nat}
    (h : Tracks P p kt st) : Tracks P p kt (addSievingPrime P st q) := by
  obtain ⟨kc, hmem, hc, hp, hkt, hlo, hmin⟩ := h
  refine ⟨kc, ?_, hc, hp, hkt, ?_, ?_⟩
  · simp only [addSievingPrime]
    split
    · exact hmem
    · exact List.mem_append_left _ hmem
  · rw [addSievingPrime_curSeg]
    exact hlo
  · intro j hj hpj hjk
    rw [addSievingPrime_curSeg]
    exact hmin j hj hpj hjk

theorem tracks_cross {P : Params} {st : EngineState} {sv : List Bool} {p kt : Nat}
    (hseg : 0 < P.segmentBytes) (hcp : isCoprime210 p = true)
    (hktc : isCoprime210 kt = true) (hstop : p * kt ≤ P.stop)
    (hfar : segLowNum P (st.curSeg + 1) ≤ p * kt)
    (h : Tracks P p kt st) : Tracks P p kt (crossOff P st sv).1 := by
  obtain ⟨kc, hmem, hkc, hpkc, hkckt, hlo, hmin⟩ := h
  have hp0 : 0 < p := isCoprime210_pos hcp
  have h30 : isCoprime30 (p * kc) = true := isCoprime30_mul hcp hkc
  have hsegle : st.curSeg ≤ segOf P (p * kc) := (le_segOf_iff hseg h30).mpr hlo
  have hmono : segLowNum P st.curSeg ≤ segLowNum P (st.curSeg + 1) :=
    segLowNum_mono P (Nat.le_succ _)
  by_cases htag : segOf P (p * kc) = st.curSeg
  · have hwcur : (⟨p, kc⟩ : WheelPrime) ∈ listAt st 0 := by
      rw [mem_listAt, Nat.add_zero, ← htag]
      exact hmem
    have hceil : ceilDivNat (segLowNum P (st.curSeg + 1)) p ≤ kt :=
      (ceilDivNat_le_iff hp0).mpr hfar
    have hmax : max kc (ceilDivNat (segLowNum P (st.curSeg + 1)) p) ≤ kt :=
      max_le hkckt hceil
    have hknc : isCoprime210 (nextCofactor P st.curSeg ⟨p, kc⟩) = true :=
      nextCoprime210_coprime _
    have hkckn : kc ≤ nextCofactor P st.curSeg ⟨p, kc⟩ :=
      Nat.le_trans (Nat.le_max_left _ _) (le_nextCoprime210 _)
    have hknle : nextCofactor P st.curSeg ⟨p, kc⟩ ≤ kt := nextCoprime210_le hktc hmax
    have hmul : p * nextCofactor P st.curSeg ⟨p, kc⟩ ≤ p * kt := Nat.mul_le_mul_left _ hknle
    have hnd : ¬ (P.stop
        < (⟨p, kc⟩ : WheelPrime).prime * nextCofactor P st.curSeg ⟨p, kc⟩) := by
      show ¬ (P.stop < p * nextCofactor P st.curSeg ⟨p, kc⟩)
      omega
    have href : nextRefile P st.curSeg ⟨p, kc⟩
        = some (segOf P (p * nextCofactor P st.curSeg ⟨p, kc⟩),
            ⟨p, nextCofactor P st.curSeg ⟨p, kc⟩⟩) := by
      simp only [nextRefile]
      rw [if_neg hnd]
    refine ⟨nextCofactor P st.curSeg ⟨p, kc⟩, ?_, hknc,
      Nat.le_trans hpkc hkckn, hknle, ?_, ?_⟩
    · rw [crossOff_fst_filed]
      exact List.mem_append_right _ (List.mem_filterMap.mpr ⟨⟨p, kc⟩, hwcur, href⟩)
    · rw [crossOff_fst_curSeg]
      exact (ceilDivNat_le_iff hp0).mp
        (Nat.le_trans (Nat.le_max_right _ _) (le_nextCoprime210 _))
    · intro j hj hpj hjkn
      rw [crossOff_fst_curSeg]
      rcases Nat.lt_or_ge j kc with hjkc | hjkc
      · have := hmin j hj hpj hjkc
        omega
      · rcases Nat.lt_or_ge (p * j) (segLowNum P (st.curSeg + 1)) with hl | hg
        · exact hl
        · exfalso
          have hcl : ceilDivNat (segLowNum P (st.curSeg + 1)) p ≤ j :=
            (ceilDivNat_le_iff hp0).mpr hg
          have hmle : max kc (ceilDivNat (segLowNum P (st.curSeg + 1)) p) ≤ j :=
            max_le hjkc hcl
          have hb := nextCoprime210_min hmle hjkn
          rw [hj] at hb
          cases hb
  · have htag1 : st.curSeg + 1 ≤ segOf P (p * kc) := by omega
    refine ⟨kc, ?_, hkc, hpkc, hkckt, ?_, ?_⟩
    · rw [crossOff_fst_filed]
      apply List.mem_append_left
      rw [List.mem_filter]
      refine ⟨hmem, ?_⟩
      show ((segOf P (p * kc), (⟨p, kc⟩ : WheelPrime)).1 != st.curSeg) = true
      exact bne_iff_ne.mpr htag
    · rw [crossOff_fst_curSeg]
      exact (le_segOf_iff hseg h30).mp htag1
    · intro j hj hpj hjkc
      rw [crossOff_fst_curSeg]
      have := hmin j hj hpj hjkc
      omega

theorem runAdds_curSeg (P : Params) (ps : List Nat) : ∀ st : EngineState,
    (runAdds P st ps).curSeg = st.curSeg := by
  induction ps with
  | nil => intro st; rfl
  | cons q t ih =>
    intro st
    exact (ih (addSievingPrime P st q)).trans (addSievingPrime_curSeg P st q)

theorem tracks_runAdds {P : Params} {p kt : Nat} (ps : List Nat) : ∀ st : EngineState,
    Tracks P p kt st → Tracks P p kt (runAdds P st ps) := by
  induction ps with
  | nil => intro st h; exact h
  | cons q t ih =>
    intro st h
    exact ih (addSievingPrime P st q) (tracks_add_other h)

theorem iterSeg_curSeg (P : Params) : ∀ (j : Nat) (st : EngineState),
    (iterSeg P st j).curSeg = st.curSeg + j := by
  intro j
  induction j with
  | zero => intro st; rfl
  | succ n ih =>
    intro st
    show (iterSeg P (crossOff P st (List.replicate (segBits P) true)).1 n).curSeg
      = st.curSeg + (n + 1)
    rw [ih, crossOff_fst_curSeg]
    omega

theorem tracks_iterSeg {P : Params} {p kt : Nat} (hseg : 0 < P.segmentBytes)
    (hcp : isCoprime210 p = true) (hktc : isCoprime210 kt = true)
    (hstop : p * kt ≤ P.stop) :
    ∀ (j : Nat) (st : EngineState), segLowNum P (st.curSeg + j) ≤ p * kt →
      Tracks P p kt st → Tracks P p kt (iterSeg P st j) := by
  intro j
  induction j with
  | zero => intro st _ h; exact h
  | succ n ih =>
    intro st hfar h
    show Tracks P p kt (iterSeg P (crossOff P st (List.replicate (segBits P) true)).1 n)
    apply ih
    · rw [crossOff_fst_curSeg, show st.curSeg + 1 + n = st.curSeg + (n + 1) by omega]
      exact hfar
    · exact tracks_cross hseg hcp hktc hstop
        (Nat.le_trans (segLowNum_mono P (by omega)) hfar) h

theorem runCross_getD (P : Params) : ∀ (n : Nat) (st : EngineState) (j : Nat), j < n →
    ((runCross P st n).2).getD j [] =
      (crossOff P (iterSeg P st j) (List.replicate (segBits P) true)).2 := by
  intro n
  induction n with
  | zero => intro st j h; omega
  | succ m ih =>
    intro st j hj
    cases j with
    | zero => rfl
    | succ t =>
      have hstep : (runCross P st (m + 1)).2
          = (crossOff P st (List.replicate (segBits P) true)).2
            :: (runCross P (crossOff P st (List.replicate (segBits P) true)).1 m).2 := rfl
      rw [hstep, List.getD_cons_succ]
      exact ih _ t (by omega)

/-! Coverage: when the tracked multiple's segment is the current one,
cross_off clears its bit. -/

theorem coverage_strike {P : Params} {st : EngineState} {p kt : Nat}
    (hseg : 0 < P.segmentBytes) (hcp : isCoprime210 p = true)
    (hktc : isCoprime210 kt = true)
    (h : Tracks P p kt st)
    (hj_lo : segLowNum P st.curSeg ≤ p * kt)
    (hj_hi : p * kt < segLowNum P (st.curSeg + 1)) :
    ((crossOff P st (List.replicate (segBits P) true)).2).getD
      (bitIndexOf (p * kt) - segBits P * st.curSeg) true = false := by
  obtain ⟨kc, hmem, hkc, hpkc, hkckt, hlo, hmin⟩ := h
  have hp0 : 0 < p := isCoprime210_pos hcp
  have h30kt : isCoprime30 (p * kt) = true := isCoprime30_mul hcp hktc
  have h30kc : isCoprime30 (p * kc) = true := isCoprime30_mul hcp hkc
  have hkmul : p * kc ≤ p * kt := Nat.mul_le_mul_left _ hkckt
  have htag : segOf P (p * kc) = st.curSeg :=
    (segOf_eq_iff hseg h30kc).mpr ⟨hlo, by omega⟩
  have hwcur : (⟨p, kc⟩ : WheelPrime) ∈ listAt st 0 := by
    rw [mem_listAt, Nat.add_zero, ← htag]
    exact hmem
  have hktmem : kt ∈ strikeCofactors P st.curSeg ⟨p, kc⟩ := by
    rw [mem_strikeCofactors hp0]
    exact ⟨hkckt, hktc, hj_hi⟩
  have hidx : (bitIndexOf (p * kt) - segBits P * st.curSeg)
      ∈ strikeIdxs P st.curSeg ⟨p, kc⟩ :=
    List.mem_map.mpr ⟨kt, hktmem, rfl⟩
  have hup : bitIndexOf (p * kt) < segBits P * (st.curSeg + 1) :=
    (segBits_bridge_lt h30kt).mpr hj_hi
  have hsb : 0 < segBits P := by
    simp only [segBits]
    omega
  have hlen : bitIndexOf (p * kt) - segBits P * st.curSeg < segBits P := by
    rw [Nat.mul_succ] at hup
    omega
  rw [crossOff_snd]
  exact foldStrikes_hit P st.curSeg (listAt st 0) _ _ ⟨p, kc⟩ hwcur hidx
    (by rw [List.length_replicate]; exact hlen)

/-! Non-damage: a strike never lands on the bit of a genuine prime. -/

theorem crossOff_prime_bit {P : Params} {st : EngineState} {q : Nat}
    (hseg : 0 < P.segmentBytes) (hg : GoodState P st)
    (hq : Nat.Prime q) (hq30 : isCoprime30 q = true)
    (hlo : segLowNum P st.curSeg ≤ q) (hhi : q < segLowNum P (st.curSeg + 1)) :
    ((crossOff P st (List.replicate (segBits P) true)).2).getD
      (bitIndexOf q - segBits P * st.curSeg) true = true := by
  have hmiss : ∀ wp ∈ listAt st 0,
      (bitIndexOf q - segBits P * st.curSeg) ∉ strikeIdxs P st.curSeg wp := by
    intro wp hwp hmem
    obtain ⟨k, hk, heq⟩ := List.mem_map.mp hmem
    have hent := hg _ (mem_listAt.mp hwp)
    obtain ⟨hcp0, hck0, h2p0, hple0, hstop0, htag0⟩ := hent
    have hcp : isCoprime210 wp.prime = true := hcp0
    have hck : isCoprime210 wp.cofactor = true := hck0
    have h2p : 2 ≤ wp.prime := h2p0
    have hple : wp.prime ≤ wp.cofactor := hple0
    have hp0 : 0 < wp.prime := by omega
    rw [mem_strikeCofactors hp0] at hk
    obtain ⟨hk1, hk2, hk3⟩ := hk
    have h30 : isCoprime30 (wp.prime * k) = true := isCoprime30_mul hcp hk2
    have h30c : isCoprime30 (wp.prime * wp.cofactor) = true := isCoprime30_mul hcp hck
    have htag' : st.curSeg = segOf P (wp.prime * wp.cofactor) := htag0
    have hprod_lo : segLowNum P st.curSeg ≤ wp.prime * wp.cofactor :=
      ((segOf_eq_iff hseg h30c).mp htag'.symm).1
    have hlo' : segLowNum P st.curSeg ≤ wp.prime * k :=
      Nat.le_trans hprod_lo (Nat.mul_le_mul_left _ hk1)
    have hbq : segBits P * st.curSeg ≤ bitIndexOf q := (segBits_bridge_le hq30).mpr hlo
    have hbk : segBits P * st.curSeg ≤ bitIndexOf (wp.prime * k) :=
      (segBits_bridge_le h30).mpr hlo'
    have hbeq : bitIndexOf q = bitIndexOf (wp.prime * k) := by omega
    have hqeq : q = wp.prime * k := bitIndexOf_inj hq30 h30 hbeq
    have hk2' : 2 ≤ k := Nat.le_trans h2p (Nat.le_trans hple hk1)
    rcases (Nat.Prime.eq_one_or_self_of_dvd hq wp.prime ⟨k, hqeq⟩) with h1 | hqp
    · omega
    · rw [hqp] at hqeq
      have hone : k = 1 := by
        have hq0 : 0 < q := hq.pos
        have hqq : q * 1 = q * k := by rw [Nat.mul_one]; exact hqeq
        exact (Nat.eq_of_mul_eq_mul_left hq0 hqq).symm
      omega
  rw [crossOff_snd]
  rw [foldStrikes_not_hit P st.curSeg (listAt st 0) _ _ _ hmiss]
  exact replicate_getD_true _ _

theorem non_damage_aux (P : Params) (q : Nat) (hseg : 0 < P.segmentBytes)
    (hq : Nat.Prime q) (hq30 : isCoprime30 q = true) :
    ∀ (ops : List EngineOp) (st : EngineState), GoodState P st →
      (∀ p ∈ addedPrimes ops, isCoprime210 p = true ∧ 2 ≤ p) →
      ∀ t : Nat, segLowNum P (st.curSeg + t) ≤ q → q < segLowNum P (st.curSeg + t + 1) →
        (((runOps P st ops).2).getD t []).getD
          (bitIndexOf q - segBits P * (st.curSeg + t)) true = true := by
  intro ops
  induction ops with
  | nil =>
    intro st _ _ t _ _
    rfl
  | cons op rest ih =>
    intro st hg hops t hlo hhi
    cases op with
    | addPrime p =>
      have hp := hops p (by simp [addedPrimes])
      have hcs := addSievingPrime_curSeg P st p
      have := ih (addSievingPrime P st p) (goodState_add hg hp.1 hp.2)
        (fun r hr => hops r (by simp [addedPrimes]; right; exact hr)) t
        (by rw [hcs]; exact hlo) (by rw [hcs]; exact hhi)
      rw [hcs] at this
      exact this
    | cross =>
      cases t with
      | zero =>
        have hstep : (runOps P st (EngineOp.cross :: rest)).2
            = (crossOff P st (List.replicate (segBits P) true)).2
              :: (runOps P (crossOff P st (List.replicate (segBits P) true)).1 rest).2 := rfl
        rw [hstep, List.getD_cons_zero]
        rw [Nat.add_zero] at hlo hhi ⊢
        exact crossOff_prime_bit hseg hg hq hq30 hlo hhi
      | succ t' =>
        have hstep : (runOps P st (EngineOp.cross :: rest)).2
            = (crossOff P st (List.replicate (segBits P) true)).2
              :: (runOps P (crossOff P st (List.replicate (segBits P) true)).1 rest).2 := rfl
        rw [hstep, List.getD_cons_succ]
        have hcs := crossOff_fst_curSeg P st (List.replicate (segBits P) true)
        have := ih (crossOff P st (List.replicate (segBits P) true)).1 (goodState_cross hg)
          (fun r hr => hops r (by simpa [addedPrimes] using hr)) t'
          (by rw [hcs, show st.curSeg + 1 + t' = st.curSeg + (t' + 1) by omega]; exact hlo)
          (by rw [hcs, show st.curSeg + 1 + t' + 1 = st.curSeg + (t' + 1) + 1 by omega]; exact hhi)
        rw [hcs, show st.curSeg + 1 + t' = st.curSeg + (t' + 1) by omega] at this
        exact this

/-! Commutativity of strikes: clearing bits in any order gives the same
bitmap. -/

theorem set_false_comm (sv : List Bool) (i j : Nat) :
    (sv.set i false).set j false = (sv.set j false).set i false := by
  by_cases h : i = j
  · subst h
    rw [List.set_set]
  · exact List.set_comm _ _ _ h

theorem clearBits_set_false (l : List Nat) : ∀ (sv : List Bool) (i : Nat),
    clearBits (sv.set i false) l = (clearBits sv l).set i false := by
  induction l with
  | nil => intro sv i; rfl
  | cons j t ih =>
    intro sv i
    rw [clearBits_cons, clearBits_cons, set_false_comm, ih]

theorem clearBits_comm (l1 : List Nat) : ∀ (sv : List Bool) (l2 : List Nat),
    clearBits (clearBits sv l1) l2 = clearBits (clearBits sv l2) l1 := by
  induction l1 with
  | nil => intro sv l2; rfl
  | cons i t ih =>
    intro sv l2
    rw [clearBits_cons, ih, clearBits_set_false, clearBits_cons]

/-! The ceiling and floor forms of the lists_ length differ exactly when
segment_bytes divides max_sieving_prime. -/

theorem ceil_len_eq_of_not_dvd {P : Params} (hseg : 0 < P.segmentBytes)
    (hnd : ¬ P.segmentBytes ∣ P.maxSievingPrime) :
    dataModelListsLen P = setListsSize P := by
  unfold dataModelListsLen setListsSize
  have hdm := Nat.div_add_mod P.maxSievingPrime P.segmentBytes
  have hm : P.maxSievingPrime % P.segmentBytes ≠ 0 := by
    intro hc
    exact hnd (Nat.dvd_of_mod_eq_zero hc)
  have hlt : P.maxSievingPrime % P.segmentBytes < P.segmentBytes :=
    Nat.mod_lt _ hseg
  have h1 : P.maxSievingPrime + P.segmentBytes - 1
      = P.segmentBytes * (P.maxSievingPrime / P.segmentBytes + 1)
        + (P.maxSievingPrime % P.segmentBytes - 1) := by
    rw [Nat.mul_succ]
    omega
  rw [h1, Nat.mul_add_div hseg]
  rw [Nat.div_eq_of_lt
    (show P.maxSievingPrime % P.segmentBytes - 1 < P.segmentBytes by omega)]

/-! Claim theorems. -/

set_option maxRecDepth 100000 in
/-- C1, counterexample to the claim as stated: with stop = 4000,
segment_bytes = 16 (segment range 480) and all primes of
(sqrt 480, 63] added, the number 161 = 7 * 23 is composite, lies in
[0, 480), and has the prime factor 23 with sqrt 480 < 23 <= 63 =
max_sieving_prime; yet after cross_off on its segment its bit is still
1, because the modulo-210 wheel never strikes a multiple whose
cofactor 7 shares a factor with 210 (and the first struck multiple of
any p is p * p).  The claim predicts the bit is 0. -/
theorem eratBig_coverage_counterexample :
    161 = 7 * 23 ∧ Nat.Prime 23 ∧ ¬ Nat.Prime 161 ∧
    480 < 23 * 23 ∧ 23 ≤ 63 ∧ 161 < 480 ∧ bitIndexOf 161 = 42 ∧
    segOf ⟨4000, 16, 63⟩ 161 = 0 ∧
    ((runOps ⟨4000, 16, 63⟩ (initEngine ⟨4000, 16, 63⟩)
        [.addPrime 23, .addPrime 29, .addPrime 31, .addPrime 37, .addPrime 41,
         .addPrime 43, .addPrime 47, .addPrime 53, .addPrime 59, .addPrime 61,
         .cross]).2.getD 0 []).getD 42 true = true := by
  refine ⟨rfl, by norm_num, by norm_num, by norm_num, by norm_num, by norm_num,
    by decide, by decide, by decide⟩

/-- C1, amended: for every composite c = p * k at most stop where p was
added via add_sieving_prime and the wheel cofactor k is coprime to 210
and at least p, after cross_off has been run on all segments up to and
including the one containing c, the sieve bit of c is 0.  (The original
claim dropped the conditions on the cofactor c / p; a composite such as
7 * p is left to the small-prime sieves and keeps its bit, see the
counterexample.) -/
theorem eratBig_coverage_amended (P : Params) (ps : List Nat) (n p kt : Nat)
    (hseg : 0 < P.segmentBytes)
    (hp : p ∈ ps) (hcp : isCoprime210 p = true) (h2 : 2 ≤ p)
    (hktc : isCoprime210 kt = true) (hpkt : p ≤ kt) (hstop : p * kt ≤ P.stop)
    (hn : segOf P (p * kt) < n) :
    (((runCross P (runAdds P (initEngine P) ps) n).2).getD (segOf P (p * kt)) []).getD
      (bitIndexOf (p * kt) - segBits P * segOf P (p * kt)) true = false := by
  have h30 : isCoprime30 (p * kt) = true := isCoprime30_mul hcp hktc
  have hj := (segOf_eq_iff hseg h30).mp rfl
  obtain ⟨l1, l2, rfl⟩ := List.append_of_mem hp
  have hcs0 : (runAdds P (initEngine P) (l1 ++ p :: l2)).curSeg = 0 := by
    rw [runAdds_curSeg]
    rfl
  have htr : Tracks P p kt (runAdds P (initEngine P) (l1 ++ p :: l2)) := by
    have hsplit : runAdds P (initEngine P) (l1 ++ p :: l2)
        = runAdds P (addSievingPrime P (runAdds P (initEngine P) l1) p) l2 := by
      unfold runAdds
      rw [List.foldl_append, List.foldl_cons]
    rw [hsplit]
    apply tracks_runAdds
    apply tracks_addSelf hcp h2 hktc hpkt hstop
    rw [runAdds_curSeg]
    show segLowNum P (initEngine P).curSeg ≤ p * kt
    simp [segLowNum, initEngine]
  rw [runCross_getD P n _ _ hn]
  have htrj : Tracks P p kt
      (iterSeg P (runAdds P (initEngine P) (l1 ++ p :: l2)) (segOf P (p * kt))) := by
    apply tracks_iterSeg hseg hcp hktc hstop
    · rw [hcs0, Nat.zero_add]
      exact hj.1
    · exact htr
  have hcsj : (iterSeg P (runAdds P (initEngine P) (l1 ++ p :: l2))
      (segOf P (p * kt))).curSeg = segOf P (p * kt) := by
    rw [iterSeg_curSeg, hcs0, Nat.zero_add]
  have hres := coverage_strike hseg hcp hktc htrj
    (by rw [hcsj]; exact hj.1) (by rw [hcsj]; exact hj.2)
  rw [hcsj] at hres
  exact hres

/-- C1 witness: with stop = 600, segment_bytes = 16, adding the prime
11, the composite 121 = 11 * 11 in segment 0 has its bit cleared by
the first cross_off. -/
theorem eratBig_coverage_amended_witness :
    (((runCross ⟨600, 16, 30⟩ (runAdds ⟨600, 16, 30⟩ (initEngine ⟨600, 16, 30⟩) [11]) 1).2).getD
        (segOf ⟨600, 16, 30⟩ (11 * 11)) []).getD
      (bitIndexOf (11 * 11) - segBits ⟨600, 16, 30⟩ * segOf ⟨600, 16, 30⟩ (11 * 11)) true
      = false :=
  eratBig_coverage_amended ⟨600, 16, 30⟩ [11] 1 11 11 (by decide) (by decide) (by decide)
    (by decide) (by decide) (by decide) (by decide) (by decide)

/-- C2: a genuine prime's bit is never cleared: for any sequence of
add_sieving_prime and cross_off calls (the added primes being wheel
units at least 2), the output bitmap of every segment still has a 1 at
the bit of every prime q of that segment. -/
theorem eratBig_non_damage (P : Params) (ops : List EngineOp) (q : Nat)
    (hseg : 0 < P.segmentBytes)
    (hops : ∀ p ∈ addedPrimes ops, isCoprime210 p = true ∧ 2 ≤ p)
    (hq : Nat.Prime q) (hq30 : isCoprime30 q = true) :
    ∀ t : Nat, segLowNum P t ≤ q → q < segLowNum P (t + 1) →
      (((runOps P (initEngine P) ops).2).getD t []).getD
        (bitIndexOf q - segBits P * t) true = true := by
  intro t hlo hhi
  have h := non_damage_aux P q hseg hq hq30 ops (initEngine P) (goodState_init P) hops t
  have hc : (initEngine P).curSeg = 0 := rfl
  rw [hc, Nat.zero_add] at h
  exact h hlo hhi

/-- C2 witness: the prime 13 keeps its bit through the first segment
after adding the sieving prime 11. -/
theorem eratBig_non_damage_witness :
    (((runOps ⟨600, 16, 30⟩ (initEngine ⟨600, 16, 30⟩) [.addPrime 11, .cross]).2).getD 0 []).getD
      (bitIndexOf 13 - segBits ⟨600, 16, 30⟩ * 0) true = true :=
  eratBig_non_damage ⟨600, 16, 30⟩ [.addPrime 11, .cross] 13 (by decide) (by decide)
    (by norm_num) (by decide) 0 (by decide) (by decide)

/-- C3: conservation: after any sequence of add_sieving_prime and
cross_off calls, the number of WheelPrimes filed across all lists_
chains plus the number of retired (dropped) primes equals the number
of add_sieving_prime calls. -/
theorem eratBig_conservation (P : Params) (ops : List EngineOp) :
    (runOps P (initEngine P) ops).1.filed.length + (runOps P (initEngine P) ops).1.dropped
      = (runOps P (initEngine P) ops).1.added := by
  have h := runOps_counts P ops (initEngine P)
  have h0 : (initEngine P).filed.length = 0 := rfl
  have h1 : (initEngine P).dropped = 0 := rfl
  have h2 : (initEngine P).added = 0 := rfl
  omega

/-- C4: routing: in any state reached from the initial engine (in
particular after any cross_off call), every WheelPrime resident in
lists_[i] has its next multiple inside
[base + i * segment_range, base + (i+1) * segment_range), where base
is the low end of the current segment. -/
theorem eratBig_routing (P : Params) (ops : List EngineOp) (hseg : 0 < P.segmentBytes)
    (hops : ∀ p ∈ addedPrimes ops, isCoprime210 p = true ∧ 2 ≤ p) :
    ∀ (i : Nat) (wp : WheelPrime), wp ∈ listAt (runOps P (initEngine P) ops).1 i →
      segLowNum P ((runOps P (initEngine P) ops).1.curSeg + i) ≤ wp.prime * wp.cofactor ∧
      wp.prime * wp.cofactor
        < segLowNum P ((runOps P (initEngine P) ops).1.curSeg + i + 1) := by
  intro i wp hm
  have hg := goodState_runOps ops (initEngine P) (goodState_init P) hops
  have he := mem_listAt.mp hm
  have ge := hg _ he
  obtain ⟨hcp0, hck0, _, _, _, htag0⟩ := ge
  have hcp : isCoprime210 wp.prime = true := hcp0
  have hck : isCoprime210 wp.cofactor = true := hck0
  have htag : (runOps P (initEngine P) ops).1.curSeg + i
      = segOf P (wp.prime * wp.cofactor) := htag0
  have h30 := isCoprime30_mul hcp hck
  exact (segOf_eq_iff hseg h30).mp htag.symm

/-- C4 witness: after adding 23 and crossing off one segment with
stop = 4000 and segment_bytes = 16, the WheelPrime for 23 sits in
lists_[0] of the new base and its next multiple 529 lies in
[480, 960). -/
theorem eratBig_routing_witness :
    segLowNum ⟨4000, 16, 63⟩
        ((runOps ⟨4000, 16, 63⟩ (initEngine ⟨4000, 16, 63⟩)
          [.addPrime 23, .cross]).1.curSeg + 0) ≤ 23 * 23 ∧
      23 * 23 < segLowNum ⟨4000, 16, 63⟩
        ((runOps ⟨4000, 16, 63⟩ (initEngine ⟨4000, 16, 63⟩)
          [.addPrime 23, .cross]).1.curSeg + 0 + 1) :=
  eratBig_routing ⟨4000, 16, 63⟩ [.addPrime 23, .cross] (by decide) (by decide)
    0 ⟨23, 23⟩ (by decide)

/-- C5: zero-strike edge case: a WheelPrime of the current chain whose
relative multiple index equals exactly segment_bytes * 8 (its next
strike is the first bit of the next segment) receives no strike in the
current segment and is re-filed into lists_[1] (the slot of segment
curSeg + 1) with its wheel state (prime and cofactor) unchanged. -/
theorem eratBig_zero_strike (P : Params) (st : EngineState) (sieve : List Bool)
    (wp : WheelPrime) (hseg : 0 < P.segmentBytes)
    (hcp : isCoprime210 wp.prime = true) (hck : isCoprime210 wp.cofactor = true)
    (hidx : bitIndexOf (wp.prime * wp.cofactor) = segBits P * (st.curSeg + 1))
    (hstop : wp.prime * wp.cofactor ≤ P.stop)
    (hcur : wp ∈ listAt st 0) :
    strikeIdxs P st.curSeg wp = [] ∧
    nextRefile P st.curSeg wp = some (st.curSeg + 1, wp) ∧
    (st.curSeg + 1, wp) ∈ (crossOff P st sieve).1.filed := by
  have hp0 : 0 < wp.prime := isCoprime210_pos hcp
  have h30 : isCoprime30 (wp.prime * wp.cofactor) = true := isCoprime30_mul hcp hck
  have hge : segLowNum P (st.curSeg + 1) ≤ wp.prime * wp.cofactor :=
    (segBits_bridge_le h30).mp (Nat.le_of_eq hidx.symm)
  have hceil : ceilDivNat (segLowNum P (st.curSeg + 1)) wp.prime ≤ wp.cofactor :=
    (ceilDivNat_le_iff hp0).mpr hge
  have hmax : max wp.cofactor (ceilDivNat (segLowNum P (st.curSeg + 1)) wp.prime)
      = wp.cofactor := max_eq_left hceil
  have hnext : nextCofactor P st.curSeg wp = wp.cofactor := by
    unfold nextCofactor
    rw [hmax]
    exact nextCoprime210_eq_self hck
  have hempty : strikeCofactors P st.curSeg wp = [] := by
    rw [List.eq_nil_iff_forall_not_mem]
    intro k hk
    rw [mem_strikeCofactors hp0] at hk
    obtain ⟨hk1, _, hk3⟩ := hk
    have hmul : wp.prime * wp.cofactor ≤ wp.prime * k := Nat.mul_le_mul_left _ hk1
    omega
  have hsb : 0 < segBits P := by
    simp only [segBits]
    omega
  have hsegeq : segOf P (wp.prime * wp.cofactor) = st.curSeg + 1 := by
    unfold segOf
    rw [hidx]
    exact Nat.mul_div_cancel_left _ hsb
  have hsome : nextRefile P st.curSeg wp = some (st.curSeg + 1, wp) := by
    simp only [nextRefile, hnext]
    rw [if_neg (show ¬ (P.stop < wp.prime * wp.cofactor) by omega), hsegeq]
  refine ⟨?_, hsome, ?_⟩
  · unfold strikeIdxs
    rw [hempty]
    rfl
  · rw [crossOff_fst_filed]
    exact List.mem_append_right _ (List.mem_filterMap.mpr ⟨wp, hcur, hsome⟩)

/-- C5 witness: the WheelPrime (13, 37) with next strike 481 (the first
bit of segment 1 when segment_bytes = 16) gets zero strikes in segment
0 and is re-filed into the slot of segment 1 unchanged. -/
theorem eratBig_zero_strike_witness :
    strikeIdxs ⟨600, 16, 30⟩ 0 ⟨13, 37⟩ = [] ∧
    nextRefile ⟨600, 16, 30⟩ 0 ⟨13, 37⟩ = some (0 + 1, ⟨13, 37⟩) ∧
    (0 + 1, (⟨13, 37⟩ : WheelPrime))
      ∈ (crossOff ⟨600, 16, 30⟩
          ⟨[(0, ⟨13, 37⟩)], 3, 0, 1, 0⟩ (List.replicate 128 true)).1.filed :=
  eratBig_zero_strike ⟨600, 16, 30⟩ ⟨[(0, ⟨13, 37⟩)], 3, 0, 1, 0⟩
    (List.replicate 128 true) ⟨13, 37⟩ (by decide) (by decide) (by decide)
    (by decide) (by decide) (by decide)

/-- C6: when the seed multiple of a prime handed to add_sieving_prime
exceeds stop, the prime is silently discarded: the call returns
normally (the model is a total function) and the engine's lists are
exactly as if the call had not been made.  Only the specification's
ghost accounting of dropped/added calls advances. -/
theorem eratBig_store_out_of_range (P : Params) (st : EngineState) (p : Nat)
    (h : P.stop < p * seedCofactor P st p) :
    (addSievingPrime P st p).filed = st.filed ∧
    (addSievingPrime P st p).curSeg = st.curSeg ∧
    (addSievingPrime P st p).allocatedSlots = st.allocatedSlots := by
  simp only [addSievingPrime]
  rw [if_pos h]
  exact ⟨rfl, rfl, rfl⟩

/-- C6 witness: adding 23 with stop = 100 (seed multiple 529) leaves
the engine's lists untouched. -/
theorem eratBig_store_out_of_range_witness :
    (addSievingPrime ⟨100, 16, 10⟩ (initEngine ⟨100, 16, 10⟩) 23).filed
        = (initEngine ⟨100, 16, 10⟩).filed ∧
      (addSievingPrime ⟨100, 16, 10⟩ (initEngine ⟨100, 16, 10⟩) 23).curSeg
        = (initEngine ⟨100, 16, 10⟩).curSeg ∧
      (addSievingPrime ⟨100, 16, 10⟩ (initEngine ⟨100, 16, 10⟩) 23).allocatedSlots
        = (initEngine ⟨100, 16, 10⟩).allocatedSlots :=
  eratBig_store_out_of_range ⟨100, 16, 10⟩ (initEngine ⟨100, 16, 10⟩) 23 (by decide)

/-- C7, counterexample to the claim as stated: the two lists_-length
formulas of the spec disagree on the code's allocation whenever
segment_bytes divides max_sieving_prime; with both equal to 16384 the
constructor formula gives 3 slots while the data-model formula gives
2, so the two statements cannot both describe the constructor. -/
theorem listsSize_counterexample :
    (initEngine ⟨1000000, 16384, 16384⟩).allocatedSlots = 3 ∧
    dataModelListsLen ⟨1000000, 16384, 16384⟩ = 2 ∧ (3 : Nat) ≠ 2 := by
  refine ⟨by decide, by decide, by decide⟩

/-- C7, amended: the constructor allocates exactly
max_sieving_prime / segment_bytes + 2 lists_ slots, all initially
empty; the data-model formula ceil(max_prime / segment_bytes) + 1
agrees with it exactly when segment_bytes does not divide
max_sieving_prime (when it divides, the formulas differ by one, see
the counterexample). -/
theorem eratBig_lists_size (P : Params) (hseg : 0 < P.segmentBytes)
    (hnd : ¬ P.segmentBytes ∣ P.maxSievingPrime) :
    (initEngine P).allocatedSlots = setListsSize P ∧
    (∀ i : Nat, listAt (initEngine P) i = []) ∧
    dataModelListsLen P = setListsSize P :=
  ⟨rfl, fun _ => rfl, ceil_len_eq_of_not_dvd hseg hnd⟩

/-- C7 witness: with segment_bytes = 16384 and max_sieving_prime =
100000 the constructor allocates 100000 / 16384 + 2 = 8 slots, all
empty, and the data-model formula also gives 8. -/
theorem eratBig_lists_size_witness :
    (initEngine ⟨0, 16384, 100000⟩).allocatedSlots = setListsSize ⟨0, 16384, 100000⟩ ∧
    (∀ i : Nat, listAt (initEngine ⟨0, 16384, 100000⟩) i = []) ∧
    dataModelListsLen ⟨0, 16384, 100000⟩ = setListsSize ⟨0, 16384, 100000⟩ :=
  eratBig_lists_size ⟨0, 16384, 100000⟩ (by decide) (by decide)

/-- C8: order independence: each strike only ANDs a complement mask
into the bitmap, so the sieve produced by cross_off does not depend on
the order of the WheelPrimes of lists_[0]: two states with permuted
current chains (and the same current segment) yield the same output
bitmap on any input sieve. -/
theorem crossOff_order_independent (P : Params) (st st' : EngineState)
    (sieve : List Bool) (hcs : st'.curSeg = st.curSeg)
    (hperm : (listAt st' 0).Perm (listAt st 0)) :
    (crossOff P st' sieve).2 = (crossOff P st sieve).2 := by
  rw [crossOff_snd, crossOff_snd, hcs]
  haveI : RightCommutative
      (fun (sv : List Bool) (wp : WheelPrime) => clearBits sv (strikeIdxs P st.curSeg wp)) :=
    ⟨fun b a1 a2 => clearBits_comm _ _ _⟩
  exact hperm.foldl_eq sieve

/-- C8 witness: swapping the two WheelPrimes of the current chain
leaves the output bitmap of cross_off unchanged. -/
theorem crossOff_order_independent_witness :
    (crossOff ⟨600, 16, 30⟩ ⟨[(0, ⟨13, 13⟩), (0, ⟨11, 11⟩)], 5, 0, 2, 0⟩
        (List.replicate 128 true)).2
      = (crossOff ⟨600, 16, 30⟩ ⟨[(0, ⟨11, 11⟩), (0, ⟨13, 13⟩)], 5, 0, 2, 0⟩
        (List.replicate 128 true)).2 :=
  crossOff_order_independent ⟨600, 16, 30⟩
    ⟨[(0, ⟨11, 11⟩), (0, ⟨13, 13⟩)], 5, 0, 2, 0⟩
    ⟨[(0, ⟨13, 13⟩), (0, ⟨11, 11⟩)], 5, 0, 2, 0⟩
    (List.replicate 128 true) (by decide) (by decide)

/-- C9: a null primes-vector pointer makes generate_primes and
generate_n_primes harmless no-ops: for every stop, n and start the
call returns normally and leaves everything unchanged (the guard
"if (primes)" in primesieve.hpp short-circuits before any work). -/
theorem generate_primes_null (stop n start : Nat) :
    generate_primes stop none = none ∧
    generate_primes_range start stop none = none ∧
    generate_n_primes n none = none ∧
    generate_n_primes_from n start none = none :=
  ⟨rfl, rfl, rfl, rfl⟩

/-- C10: generate_primes(start, stop, primes) appends to the end of
the caller's vector: the first |v| elements of the result are exactly
the prior contents v in order, followed by precisely the primes inside
[start, stop]. -/
theorem generate_primes_appends (start stop : Nat) (v : List Nat) :
    generate_primes_range start stop (some v) = some (v ++ primesBetween start stop) ∧
    (v ++ primesBetween start stop).take v.length = v ∧
    (v ++ primesBetween start stop).drop v.length = primesBetween start stop :=
  ⟨rfl, List.take_left v _, List.drop_left v _⟩
